import Mathlib

/-!
Verification of the soft-nearest-neighbor / adversarial-search models of
`lib/mnist_model.py` (the `KNNModel` and `NCAModel` classes).

Tensors are embedded as functions out of `Fin`: a batch of `N` samples,
each a flattened vector of dimension `d`, is `Fin N → Fin d → ℝ`.
Floating-point arithmetic is modelled by exact real arithmetic.
The convolutional network `NCAModel.forward` and the autodiff gradient
are abstracted as function parameters (`f`, `grad_fn`): the claims under
study are about the code surrounding them, which treats both as black
boxes.
-/

set_option maxRecDepth 4000

namespace KnnDefense

noncomputable section

open Finset

/-- A batch of `N` samples, each a flattened real vector of dimension `d`. -/
def Batch (N d : ℕ) : Type := Fin N → Fin d → ℝ

/-- `((u - v) ** 2).sum()`: squared Euclidean distance between two vectors. -/
def sqDist {d : ℕ} (u v : Fin d → ℝ) : ℝ := ∑ k, (u k - v k) ^ 2

/-- `t.norm(2)`: the L2 norm of a flattened vector. -/
def l2Norm {d : ℕ} (v : Fin d → ℝ) : ℝ := Real.sqrt (∑ k, v k ^ 2)

namespace KNNModel

/-- `KNNModel.forward`: the model applies `nn.Identity()` to its input. -/
def forward {N d : ℕ} (x : Batch N d) : Batch N d := x

end KNNModel

namespace NCAModel

/-- `(y_target[i] == y_target).float()`: 1.0 at indices with the same label
as sample `i`, 0.0 elsewhere. -/
def mask_same {N : ℕ} (y : Fin N → ℤ) (i j : Fin N) : ℝ :=
  if y i = y j then 1 else 0

/-- `torch.ones(batch_size)` with entry `i` zeroed: 0.0 at `i`, 1.0 elsewhere. -/
def mask_not_self {N : ℕ} (i j : Fin N) : ℝ :=
  if j = i then 0 else 1

/-- `torch.exp(- torch.min(dist, 50.))`: the distance is clamped above at
50.0 before negation and exponentiation. -/
def clipExp (dist : ℝ) : ℝ := Real.exp (-(min dist 50))

/-- `((x[i] - ref) ** 2).view(batch_size, -1).sum(1) * self.log_it.exp()`:
row `i` of the temperature-scaled squared-distance matrix against the
reference batch `ref`. -/
def distRow {N d : ℕ} (log_it : ℝ) (xi : Fin d → ℝ) (ref : Batch N d)
    (j : Fin N) : ℝ :=
  sqDist xi (ref j) * Real.exp log_it

/-- `NCAModel.get_prob(x, y_target, x_orig)`: for each sample `i`,
the masked soft-nearest-neighbor probability
`sum(mask_not_self * mask_same * exp) / sum(mask_not_self * exp)`.
When `x_orig` is given the distances are taken w.r.t. `x_orig` instead of
the batch `x` itself. -/
def get_prob {N d : ℕ} (log_it : ℝ) (x : Batch N d) (y : Fin N → ℤ)
    (x_orig : Option (Batch N d)) (i : Fin N) : ℝ :=
  (∑ j, mask_not_self i j * mask_same y i j *
      clipExp (distRow log_it (x i) (x_orig.getD x) j)) /
  (∑ j, mask_not_self i j * clipExp (distRow log_it (x i) (x_orig.getD x) j))

/-- The spec's formula for `p_target[i]`: the sum over `j ≠ i` with
`y j = y i` of `exp(-d i j)` divided by the sum over `j ≠ i` of
`exp(-d i j)`, where `d i j` is the squared Euclidean distance between
`x i` and `x j` scaled by `exp log_it` and clamped above at 50.0 before
negation and exponentiation. -/
def p_target_spec {N d : ℕ} (log_it : ℝ) (x : Batch N d) (y : Fin N → ℤ)
    (i : Fin N) : ℝ :=
  (∑ j ∈ univ.filter (fun j => j ≠ i ∧ y j = y i),
      Real.exp (-(min (sqDist (x i) (x j) * Real.exp log_it) 50))) /
  (∑ j ∈ univ.filter (fun j => j ≠ i),
      Real.exp (-(min (sqDist (x i) (x j) * Real.exp log_it) 50)))

/-- The masked numerator sum equals the spec's filtered sum. -/
lemma masked_num_eq_filter {N : ℕ} (y : Fin N → ℤ) (i : Fin N)
    (e : Fin N → ℝ) :
    ∑ j, mask_not_self i j * mask_same y i j * e j
      = ∑ j ∈ univ.filter (fun j => j ≠ i ∧ y j = y i), e j := by
  rw [Finset.sum_filter]
  refine Finset.sum_congr rfl (fun j _ => ?_)
  by_cases hij : j = i
  · simp [mask_not_self, mask_same, hij]
  · by_cases hy : y j = y i
    · have hy' : y i = y j := hy.symm
      simp [mask_not_self, mask_same, hij, hy']
    · have hy' : ¬ y i = y j := fun h => hy h.symm
      simp [mask_not_self, mask_same, hij, hy, hy']

/-- The masked denominator sum equals the spec's not-self filtered sum. -/
lemma masked_den_eq_filter {N : ℕ} (i : Fin N) (e : Fin N → ℝ) :
    ∑ j, mask_not_self i j * e j
      = ∑ j ∈ univ.filter (fun j => j ≠ i), e j := by
  rw [Finset.sum_filter]
  refine Finset.sum_congr rfl (fun j _ => ?_)
  by_cases hij : j = i <;> simp [mask_not_self, hij]

/-- The not-self mask is nonnegative. -/
lemma mask_not_self_nonneg {N : ℕ} (i j : Fin N) : 0 ≤ mask_not_self i j := by
  unfold mask_not_self
  split <;> norm_num

/-- The same-label mask is nonnegative. -/
lemma mask_same_nonneg {N : ℕ} (y : Fin N → ℤ) (i j : Fin N) :
    0 ≤ mask_same y i j := by
  unfold mask_same
  split <;> norm_num

/-- The same-label mask is at most one. -/
lemma mask_same_le_one {N : ℕ} (y : Fin N → ℤ) (i j : Fin N) :
    mask_same y i j ≤ 1 := by
  unfold mask_same
  split <;> norm_num

/-- Each clamped exponential is strictly positive. -/
lemma clipExp_pos (dist : ℝ) : 0 < clipExp dist := Real.exp_pos _

/-- The not-self masked sum of positive terms is strictly positive as soon
as the batch has a second sample. -/
lemma den_sum_pos {N : ℕ} (hN : 2 ≤ N) (i : Fin N) (e : Fin N → ℝ)
    (he : ∀ j, 0 < e j) : 0 < ∑ j, mask_not_self i j * e j := by
  have : Nontrivial (Fin N) := Fin.nontrivial_iff_two_le.mpr hN
  obtain ⟨j, hj⟩ := exists_ne i
  refine Finset.sum_pos'
    (fun k _ => mul_nonneg (mask_not_self_nonneg i k) (he k).le)
    ⟨j, Finset.mem_univ j, ?_⟩
  have hmask : mask_not_self i j = 1 := by simp [mask_not_self, hj]
  rw [hmask, one_mul]
  exact he j

/-- The same-class masked numerator is bounded by the not-self denominator. -/
lemma num_le_den_sum {N : ℕ} (y : Fin N → ℤ) (i : Fin N) (e : Fin N → ℝ)
    (he : ∀ j, 0 ≤ e j) :
    ∑ j, mask_not_self i j * mask_same y i j * e j
      ≤ ∑ j, mask_not_self i j * e j := by
  refine Finset.sum_le_sum (fun j _ => ?_)
  have h1 : mask_not_self i j * mask_same y i j * e j
      = mask_same y i j * (mask_not_self i j * e j) := by ring
  rw [h1]
  exact mul_le_of_le_one_left (mul_nonneg (mask_not_self_nonneg i j) (he j))
    (mask_same_le_one y i j)

/-- `torch.clamp(t, 0, 1)` on one pixel. -/
def clamp01 (t : ℝ) : ℝ := min (max t 0) 1

/-- `delta = step_size * grad / grad_norm.view(batch_size, 1, 1, 1)`:
each sample's gradient is divided by its own L2 norm and scaled by the
step size. -/
def delta {N P : ℕ} (step_size : ℝ) (grad : Batch N P) : Batch N P :=
  fun i p => step_size * grad i p / l2Norm (grad i)

/-- The loop state of `forward_adv`: the current perturbed batch `x` and
the frozen reference embeddings `outputs_orig` computed before the loop. -/
structure AdvState (N P d : ℕ) where
  x : Batch N P
  outputs_orig : Batch N d

/-- One iteration of the `forward_adv` loop: take the gradient of the loss
at the current batch against the frozen reference embeddings, add the
norm-scaled step, and clamp every pixel to the valid range. `grad_fn`
abstracts `torch.autograd.grad` of `- log(get_prob(forward x, y,
x_orig)).sum()` with respect to `x`. -/
def advStep {N P d : ℕ} (grad_fn : Batch N P → Batch N d → Batch N P)
    (step_size : ℝ) (s : AdvState N P d) : AdvState N P d :=
  ⟨fun i p =>
      clamp01 (s.x i p + delta step_size (grad_fn s.x s.outputs_orig) i p),
   s.outputs_orig⟩

/-- The loop entry state of `forward_adv`: reference embeddings of the
unperturbed batch, and the input optionally shifted by the sampled noise
(`x + torch.zeros_like(x).normal_(0, step_size)` when `rand` is set;
`noise` stands for the realized Gaussian sample). -/
def advInit {N P d : ℕ} (f : Batch N P → Batch N d) (rand : Bool)
    (noise : Batch N P) (x : Batch N P) : AdvState N P d :=
  ⟨if rand then (fun i p => x i p + noise i p) else x, f x⟩

/-- `NCAModel.forward_adv`: run `num_steps` iterations of the gradient
loop from the (possibly noised) input, and return the pair of the
original-batch embeddings and the embeddings of the final perturbed
batch. `f` abstracts the convolutional network `NCAModel.forward`. -/
def forward_adv {N P d : ℕ} (f : Batch N P → Batch N d)
    (grad_fn : Batch N P → Batch N d → Batch N P) (step_size : ℝ)
    (num_steps : ℕ) (rand : Bool) (noise : Batch N P) (x : Batch N P) :
    Batch N d × Batch N d :=
  (f x, f (((advStep grad_fn step_size)^[num_steps] (advInit f rand noise x)).x))

open Classical in
/-- The `forward_adv` update with the per-sample division guarded:
`none` is the error branch, taken exactly when some sample's gradient has
zero L2 norm — the point at which the unguarded source divides by zero,
with no minimum-norm floor applied. -/
def advStepChecked {N P d : ℕ} (grad_fn : Batch N P → Batch N d → Batch N P)
    (step_size : ℝ) (s : AdvState N P d) : Option (AdvState N P d) :=
  if ∀ i, l2Norm (grad_fn s.x s.outputs_orig i) ≠ 0 then
    some (advStep grad_fn step_size s)
  else
    none

/-- The `forward_adv` loop iterated through the guarded step: reaching the
division-by-zero error branch at any iteration aborts the whole run. -/
def advIterChecked {N P d : ℕ} (grad_fn : Batch N P → Batch N d → Batch N P)
    (step_size : ℝ) : ℕ → AdvState N P d → Option (AdvState N P d)
  | 0, s => some s
  | k + 1, s => (advIterChecked grad_fn step_size k s).bind
      (advStepChecked grad_fn step_size)

/-- One guarded iteration from the initial state is the guarded step. -/
lemma advIterChecked_one {N P d : ℕ}
    (grad_fn : Batch N P → Batch N d → Batch N P) (step_size : ℝ)
    (s : AdvState N P d) :
    advIterChecked grad_fn step_size 1 s = advStepChecked grad_fn step_size s :=
  rfl

/-- A successful guarded step computes exactly the unguarded step. -/
lemma advStepChecked_some {N P d : ℕ}
    (grad_fn : Batch N P → Batch N d → Batch N P) (step_size : ℝ)
    (s t : AdvState N P d)
    (h : advStepChecked grad_fn step_size s = some t) :
    t = advStep grad_fn step_size s := by
  unfold advStepChecked at h
  split at h
  · exact (Option.some_inj.mp h).symm
  · exact Option.noConfusion h

/-- The guarded step succeeds when every sample's gradient norm is nonzero. -/
lemma advStepChecked_succeeds {N P d : ℕ}
    (grad_fn : Batch N P → Batch N d → Batch N P) (step_size : ℝ)
    (s : AdvState N P d)
    (hc : ∀ i, l2Norm (grad_fn s.x s.outputs_orig i) ≠ 0) :
    advStepChecked grad_fn step_size s = some (advStep grad_fn step_size s) := by
  unfold advStepChecked
  exact if_pos hc

/-- Iterating the loop step never changes the reference embeddings. -/
lemma advStep_outputs_orig {N P d : ℕ}
    (grad_fn : Batch N P → Batch N d → Batch N P) (step_size : ℝ)
    (s : AdvState N P d) :
    (advStep grad_fn step_size s).outputs_orig = s.outputs_orig := rfl

/-- Every clamped pixel lies in the unit interval. -/
lemma clamp01_mem (t : ℝ) : 0 ≤ clamp01 t ∧ clamp01 t ≤ 1 := by
  unfold clamp01
  exact ⟨le_min (le_max_right t 0) zero_le_one, min_le_right _ _⟩

/-- The L2 norm is nonnegative. -/
lemma l2Norm_nonneg {d : ℕ} (v : Fin d → ℝ) : 0 ≤ l2Norm v :=
  Real.sqrt_nonneg _

/-- The L2 norm scales by the absolute value of a scalar factor. -/
lemma l2Norm_smul {d : ℕ} (c : ℝ) (v : Fin d → ℝ) :
    l2Norm (fun p => c * v p) = |c| * l2Norm v := by
  unfold l2Norm
  rw [← Real.sqrt_sq_eq_abs, ← Real.sqrt_mul (sq_nonneg c), Finset.mul_sum]
  congr 1
  refine Finset.sum_congr rfl (fun p _ => ?_)
  ring

end NCAModel

end

end KnnDefense

namespace KnnDefense

open Finset NCAModel

/-- C1: `NCAModel.get_prob` without `x_orig` computes, for every sample `i`,
exactly the spec's soft-nearest-neighbor quotient: the sum over `j ≠ i`
with `y j = y i` of `exp (-d i j)` divided by the sum over `j ≠ i` of
`exp (-d i j)`, where `d i j` is the squared Euclidean distance between
`x i` and `x j` scaled by `exp log_it` and clamped above at 50.0. -/
theorem get_prob_eq_spec {N d : ℕ} (hN : 2 ≤ N) (log_it : ℝ)
    (x : Batch N d) (y : Fin N → ℤ) (i : Fin N) :
    get_prob log_it x y none i = p_target_spec log_it x y i := by
  unfold get_prob p_target_spec
  simp only [Option.getD_none]
  rw [masked_num_eq_filter, masked_den_eq_filter]
  rfl

/-- Witness for C1 at a concrete batch of size 2 in dimension 1. -/
theorem get_prob_eq_spec_witness :
    get_prob (N := 2) (d := 1) 0 (fun _ _ => 0) (fun _ => 0) none 0
      = p_target_spec (N := 2) (d := 1) 0 (fun _ _ => 0) (fun _ => 0) 0 :=
  get_prob_eq_spec (by norm_num) 0 _ _ 0

/-- C5: when every sample of the batch carries a distinct label, the
same-class-and-not-self numerator vanishes and `NCAModel.get_prob` returns
0 at every sample. -/
theorem get_prob_unique_labels {N d : ℕ} (hN : 2 ≤ N) (log_it : ℝ)
    (x : Batch N d) (y : Fin N → ℤ)
    (hy : ∀ i j : Fin N, i ≠ j → y i ≠ y j) (i : Fin N) :
    get_prob log_it x y none i = 0 := by
  unfold get_prob
  have hnum : ∑ j, mask_not_self i j * mask_same y i j *
      clipExp (distRow log_it (x i) ((none : Option (Batch N d)).getD x) j) = 0 := by
    refine Finset.sum_eq_zero (fun j _ => ?_)
    by_cases hij : j = i
    · simp [mask_not_self, hij]
    · have hyij : ¬ y i = y j := hy i j (fun h => hij h.symm)
      simp [mask_same, hyij]
  rw [hnum, zero_div]

/-- Witness for C5: a batch of size 2 with labels 0 and 1. -/
theorem get_prob_unique_labels_witness :
    get_prob (N := 2) (d := 1) 0 (fun _ _ => 0) (fun j => (j.val : ℤ)) none 0 = 0 :=
  get_prob_unique_labels (by norm_num) 0 _ _ (by decide) 0

/-- C6: when all samples of the batch share one label, the same-class mask
agrees with the not-self mask, numerator and denominator coincide, and
`NCAModel.get_prob` returns 1 at every sample. -/
theorem get_prob_shared_label {N d : ℕ} (hN : 2 ≤ N) (log_it : ℝ)
    (x : Batch N d) (y : Fin N → ℤ) (hy : ∀ i j : Fin N, y i = y j)
    (i : Fin N) :
    get_prob log_it x y none i = 1 := by
  unfold get_prob
  have hnum : ∑ j, mask_not_self i j * mask_same y i j *
        clipExp (distRow log_it (x i) ((none : Option (Batch N d)).getD x) j)
      = ∑ j, mask_not_self i j *
        clipExp (distRow log_it (x i) ((none : Option (Batch N d)).getD x) j) := by
    refine Finset.sum_congr rfl (fun j _ => ?_)
    have hms : mask_same y i j = 1 := by simp [mask_same, hy i j]
    rw [hms, mul_one]
  rw [hnum]
  exact div_self (ne_of_gt (den_sum_pos hN i _ (fun j => clipExp_pos _)))

/-- Witness for C6: a batch of size 2 with a single shared label. -/
theorem get_prob_shared_label_witness :
    get_prob (N := 2) (d := 1) 0 (fun _ _ => 0) (fun _ => 7) none 0 = 1 :=
  get_prob_shared_label (by norm_num) 0 _ _ (by decide) 0

/-- C10: for every batch of size at least 2, any labels and any optional
reference batch, each entry returned by `NCAModel.get_prob` lies in the
closed interval from 0 to 1. -/
theorem get_prob_mem_unit {N d : ℕ} (hN : 2 ≤ N) (log_it : ℝ)
    (x : Batch N d) (y : Fin N → ℤ) (x_orig : Option (Batch N d))
    (i : Fin N) :
    0 ≤ get_prob log_it x y x_orig i ∧ get_prob log_it x y x_orig i ≤ 1 := by
  unfold get_prob
  have hden : 0 < ∑ j, mask_not_self i j *
      clipExp (distRow log_it (x i) (x_orig.getD x) j) :=
    den_sum_pos hN i _ (fun j => clipExp_pos _)
  constructor
  · refine div_nonneg (Finset.sum_nonneg (fun j _ => ?_)) hden.le
    exact mul_nonneg
      (mul_nonneg (mask_not_self_nonneg i j) (mask_same_nonneg y i j))
      (clipExp_pos _).le
  · rw [div_le_one hden]
    exact num_le_den_sum y i _ (fun j => (clipExp_pos _).le)

/-- Witness for C10 at a concrete batch of size 2 in dimension 1. -/
theorem get_prob_mem_unit_witness :
    0 ≤ get_prob (N := 2) (d := 1) 0 (fun _ _ => 0) (fun j => (j.val : ℤ)) none 0 ∧
      get_prob (N := 2) (d := 1) 0 (fun _ _ => 0) (fun j => (j.val : ℤ)) none 0 ≤ 1 :=
  get_prob_mem_unit (by norm_num) 0 _ _ none 0

/-- C9: `KNNModel.forward` is the identity on its input tensor. -/
theorem knn_forward_id {N d : ℕ} (x : Batch N d) : KNNModel.forward x = x :=
  rfl

/-- C2 counterexample: with `num_steps = 0` but `rand = true`, the noise
added before the loop survives, so the second component of the result is
not the embedding of the unperturbed batch: `forward_adv` is not a no-op
for every rand flag. -/
theorem forward_adv_zero_steps_cex :
    ¬ (forward_adv (N := 1) (P := 1) (d := 1) (fun t => t)
        (fun _ _ => fun _ _ => 0) 1 0 true (fun _ _ => 1) (fun _ _ => 0)
      = ((fun _ _ => 0), (fun _ _ => 0))) := by
  intro h
  have h2 := congrArg (fun q : Batch 1 1 × Batch 1 1 => q.2 0 0) h
  simp [forward_adv, advInit] at h2

/-- C2 (amended): with `num_steps = 0` and `rand = false`, `forward_adv`
is a no-op: both components of the returned pair are the embedding of the
original unperturbed batch. -/
theorem forward_adv_zero_steps {N P d : ℕ} (f : Batch N P → Batch N d)
    (grad_fn : Batch N P → Batch N d → Batch N P) (step_size : ℝ)
    (noise : Batch N P) (x : Batch N P) :
    forward_adv f grad_fn step_size 0 false noise x = (f x, f x) := by
  simp [forward_adv, advInit]

/-- C3: the per-sample normalization has no minimum-norm floor: whenever
some sample's gradient has L2 norm exactly zero, the guarded embedding of
the update step takes its division-by-zero error branch. -/
theorem advStepChecked_zero_grad {N P d : ℕ}
    (grad_fn : Batch N P → Batch N d → Batch N P) (step_size : ℝ)
    (s : AdvState N P d) (i : Fin N)
    (h : l2Norm (grad_fn s.x s.outputs_orig i) = 0) :
    advStepChecked grad_fn step_size s = none := by
  unfold advStepChecked
  rw [if_neg]
  intro hall
  exact hall i h

/-- Witness for C3: a vanishing gradient reaches the error branch. -/
theorem advStepChecked_zero_grad_witness :
    advStepChecked (N := 1) (P := 1) (d := 1) (fun _ _ => fun _ _ => 0) 1
      ⟨fun _ _ => 0, fun _ _ => 0⟩ = none :=
  advStepChecked_zero_grad _ _ _ 0 (by simp [l2Norm])

/-- C4 counterexample: at a zero-norm gradient the iteration does not
produce an in-range batch at all: the division yields no valid state (the
source computes 0/0 = NaN, and clamping NaN does not return it to the
unit interval), so the unconditional clipping invariant fails on that
input. -/
theorem forward_adv_clip_invariant_cex :
    ¬ ∃ t : AdvState 1 1 1,
        advIterChecked (fun _ _ => fun _ _ => 0) 1 1 ⟨fun _ _ => 0, fun _ _ => 0⟩
            = some t ∧
          ∀ i p, 0 ≤ t.x i p ∧ t.x i p ≤ 1 := by
  rintro ⟨t, ht, -⟩
  rw [advIterChecked_one] at ht
  unfold advStepChecked at ht
  rw [if_neg] at ht
  · exact Option.noConfusion ht
  · intro hall
    exact hall 0 (by simp [l2Norm])

/-- C4 (amended): for every input batch and every iteration count of at
least one, whenever the guarded run of the `forward_adv` loop succeeds —
every iteration's per-sample gradient has nonzero L2 norm, so the
division-by-zero error branch is never taken — every pixel of the
resulting perturbed batch lies in the closed interval from 0 to 1. -/
theorem forward_adv_clip_invariant_checked {N P d : ℕ}
    (grad_fn : Batch N P → Batch N d → Batch N P) (step_size : ℝ)
    (s : AdvState N P d) (k : ℕ) (hk : 1 ≤ k) (t : AdvState N P d)
    (h : advIterChecked grad_fn step_size k s = some t)
    (i : Fin N) (p : Fin P) :
    0 ≤ t.x i p ∧ t.x i p ≤ 1 := by
  cases k with
  | zero => omega
  | succ n =>
    simp only [advIterChecked] at h
    obtain ⟨u, hu, hstep⟩ := Option.bind_eq_some.mp h
    have ht : t = advStep grad_fn step_size u :=
      advStepChecked_some _ _ _ _ hstep
    subst ht
    exact clamp01_mem _

/-- Witness for C4: one successful guarded step from a batch with an
out-of-range pixel and a nonzero constant gradient. -/
theorem forward_adv_clip_invariant_checked_witness :
    0 ≤ (advStep (N := 1) (P := 1) (d := 1) (fun _ _ => fun _ _ => 1) 1
        ⟨fun _ _ => 5, fun _ _ => 0⟩).x 0 0 ∧
      (advStep (N := 1) (P := 1) (d := 1) (fun _ _ => fun _ _ => 1) 1
        ⟨fun _ _ => 5, fun _ _ => 0⟩).x 0 0 ≤ 1 :=
  forward_adv_clip_invariant_checked _ 1 ⟨fun _ _ => 5, fun _ _ => 0⟩ 1
    (by norm_num) _
    (by
      rw [advIterChecked_one]
      exact advStepChecked_succeeds _ _ _ (fun i => by simp [l2Norm]))
    0 0

/-- C7: for a nonnegative step size and any sample whose gradient has
nonzero L2 norm, the per-sample update vector of `forward_adv` has L2 norm
exactly equal to the step size, in exact real arithmetic. -/
theorem delta_norm_eq_step_size {N P : ℕ} (step_size : ℝ)
    (hs : 0 ≤ step_size) (grad : Batch N P) (i : Fin N)
    (hg : l2Norm (grad i) ≠ 0) :
    l2Norm (delta step_size grad i) = step_size := by
  have hpos : 0 < l2Norm (grad i) :=
    lt_of_le_of_ne (l2Norm_nonneg _) (Ne.symm hg)
  have hfun : delta step_size grad i
      = fun p => (step_size / l2Norm (grad i)) * grad i p := by
    funext p
    unfold delta
    ring
  rw [hfun, l2Norm_smul, abs_of_nonneg (div_nonneg hs hpos.le),
    div_mul_cancel₀ step_size hg]

/-- Witness for C7: a constant gradient of norm 3 with step size 2. -/
theorem delta_norm_eq_step_size_witness :
    l2Norm (delta (N := 1) (P := 1) 2 (fun _ _ => 3) 0) = 2 :=
  delta_norm_eq_step_size 2 (by norm_num) _ 0
    (by simp [l2Norm, Real.sqrt_ne_zero'])

/-- C8: the frame property of the adversarial loop: the reference
embeddings are computed once from the unperturbed batch before the loop,
and after any number of iterations the state still carries exactly those
embeddings — no iteration updates the comparison set handed to the
distance computation. -/
theorem forward_adv_frame {N P d : ℕ} (f : Batch N P → Batch N d)
    (grad_fn : Batch N P → Batch N d → Batch N P) (step_size : ℝ)
    (rand : Bool) (noise x : Batch N P) (k : ℕ) :
    ((advStep grad_fn step_size)^[k] (advInit f rand noise x)).outputs_orig
      = f x := by
  induction k with
  | zero => rfl
  | succ n ih => rw [Function.iterate_succ_apply', advStep_outputs_orig, ih]

end KnnDefense
